import Mathlib

/-
Verification development for the Kaleidoscope front end
(character-stream tokenizer plus recursive-descent, operator-precedence
parser).  The definitions below are a shallow embedding of the two source
files: the lexer (GetToken and its helper loops) and the parser in ast.h
(ParsePrimary, ParseBinOpRHS, ParseExpression, ParsePrototype,
ParseDefinition, the top-level handlers and MainLoop).

Modelling conventions:
- the character input stream is a List Char; getchar pops the head and
  returns none at end of input (the C EOF value);
- the function-static last_char of GetToken is threaded explicitly as an
  Option Char (none models EOF);
- tokens carry their payload (identifier text, numeric value) inline,
  modelling the globals IDENTIFIER_STR and NUM_VAL, which are written by
  GetToken and read immediately by the parser;
- the numeric payload (a C double on which the program performs no
  arithmetic) is modelled as an exact rational;
- the parser works on the list of tokens produced by the lexer; the one
  token lookahead cur_token is the head of the list (CurTok) and
  GetNextToken drops it.  At end of input the C lexer returns the eof
  token forever, which the headD below reproduces;
- parse functions return a result, the remaining tokens, and the list of
  diagnostics emitted (the C code prints them to stderr via LogError and
  returns nullptr, modelled by the err result);
- the mutual recursion of the expression parser is bounded by an explicit
  fuel argument; running out of fuel yields the distinguished result
  .out, which never occurs for sufficient fuel and is kept separate from
  a genuine parse failure.
-/

namespace Kaleidoscope

/-- Token produced by the lexer.  The C enum gives the named variants the
negative codes eof = -1, def = -2, the extern keyword -3, identifier -4,
number -5; any other input character is returned verbatim as its own code
(the ch variant).  The crash variant models the uncaught std exception
thrown by std::stod when the scanned numeric text contains no digit at
all (for example a lone dot), which aborts the process; it is unreachable
in every theorem below. -/
inductive Tok where
  | eof
  | defKw
  | externKw
  | ident (s : String)
  | num (v : Rat)
  | ch (c : Char)
  | crash
deriving DecidableEq, Repr

/-- Helper IsSpace defined in the lexer source: true only for space and
tab.  Note that GetToken does not call it; its whitespace loop calls the
libc isspace instead (see IsSpaceLibc). -/
def IsSpace (c : Char) : Bool := c = ' ' || c = '\t'

/-- The libc isspace predicate (C locale) applied to a getchar result:
space, tab, newline, vertical tab, form feed, carriage return; false on
EOF (none). -/
def IsSpaceLibc : Option Char → Bool
  | none => false
  | some c => c = ' ' || c = '\t' || c = '\n' || c = '\x0b' || c = '\x0c' || c = '\r'

/-- One getchar step: pop the next character, none at end of input. -/
def GetChar : List Char → Option Char × List Char
  | [] => (none, [])
  | c :: rest => (some c, rest)

/-- The whitespace loop of GetToken: while isspace(last_char) last_char =
getchar().  When the input is exhausted getchar yields EOF, on which
isspace is false, so the loop stops with last_char = none. -/
def SkipSpaceLoop : Option Char → List Char → Option Char × List Char
  | last, [] => if IsSpaceLibc last then (none, []) else (last, [])
  | last, c :: rest => if IsSpaceLibc last then SkipSpaceLoop (some c) rest else (last, c :: rest)

/-- The identifier loop: while isalnum(last_char = getchar()) append
last_char to the buffer; stops leaving the first non-alphanumeric
character (or EOF) in last_char. -/
def IdentLoop : String → List Char → String × Option Char × List Char
  | buf, [] => (buf, none, [])
  | buf, c :: rest =>
    if c.isAlphanum then IdentLoop (buf.push c) rest else (buf, some c, rest)

/-- The numeric-text loop: while isdigit(last_char) or last_char is a dot,
append it and advance.  No validation of dot placement happens here. -/
def NumLoop : String → Option Char → List Char → String × Option Char × List Char
  | buf, none, input => (buf, none, input)
  | buf, some c, input =>
    if c.isDigit || c = '.' then
      match input with
      | [] => (buf.push c, none, [])
      | d :: rest => NumLoop (buf.push c) (some d) rest
    else (buf, some c, input)

/-- The comment loop: last_char = getchar() has already happened in the
caller; while last_char is neither EOF nor newline nor carriage return,
advance.  Returns the terminator (or none for EOF) as the new last_char. -/
def CommentLoop : Option Char → List Char → Option Char × List Char
  | none, input => (none, input)
  | some c, input =>
    if c = '\n' || c = '\r' then (some c, input)
    else
      match input with
      | [] => (none, [])
      | d :: rest => CommentLoop (some d) rest

/-- Digit string to natural number, most significant first. -/
def DigitsToNat (ds : List Char) : Nat :=
  ds.foldl (fun acc d => acc * 10 + (d.toNat - 48)) 0

/-- Model of std::stod restricted to the strings the lexer can hand it
(nonempty strings of decimal digits and dots): it converts the longest
initial portion of the form digits [ dot digits ], ignoring anything after
it, and yields none when no conversion is possible (no digit before the
residue), in which case the C++ call throws std::invalid_argument. -/
def Stod (s : String) : Option Rat :=
  let cs := s.toList
  let ip := cs.takeWhile Char.isDigit
  let rest := cs.dropWhile Char.isDigit
  match rest with
  | '.' :: rest2 =>
    let fp := rest2.takeWhile Char.isDigit
    if ip.isEmpty && fp.isEmpty then none
    else some (mkRat (DigitsToNat ip * 10 ^ fp.length + DigitsToNat fp) (10 ^ fp.length))
  | _ => if ip.isEmpty then none else some (mkRat (DigitsToNat ip) 1)

/-- GetToken from the lexer source.  State is (last_char, input); the
result is the token plus the updated state.  The branches mirror the
source order: whitespace skip, alphabetic (identifier or keyword), digit
or dot (numeric literal via std::stod), hash (comment, then recursively
produce the next token when the terminator was not EOF), EOF, and the
default single-character token.  The fuel bounds only the recursion after
a comment; one unit per comment block, so any fuel exceeding the input
length is sufficient, and the fuel-exhausted fallback is unreachable
then. -/
def GetToken : Nat → Option Char → List Char → Tok × Option Char × List Char
  | 0, last, input => (.eof, last, input)
  | fuel + 1, last, input =>
    match SkipSpaceLoop last input with
    | (none, input1) => (.eof, none, input1)
    | (some c, input1) =>
      if c.isAlpha then
        match IdentLoop (String.singleton c) input1 with
        | (buf, last2, input2) =>
          if buf = "def" then (.defKw, last2, input2)
          else if buf = "extern" then (.externKw, last2, input2)
          else (.ident buf, last2, input2)
      else if c.isDigit || c = '.' then
        match GetChar input1 with
        | (l2, i2) =>
          match NumLoop (String.singleton c) l2 i2 with
          | (numStr, l3, i3) =>
            match Stod numStr with
            | some v => (.num v, l3, i3)
            | none => (.crash, l3, i3)
      else if c = '#' then
        match GetChar input1 with
        | (l2, i2) =>
          match CommentLoop l2 i2 with
          | (some nl, i3) => GetToken fuel (some nl) i3
          | (none, i3) => (.eof, none, i3)
      else
        match GetChar input1 with
        | (l2, i2) => (.ch c, l2, i2)

/-- Run GetToken repeatedly until it reports end of input, collecting the
tokens.  A crash token (aborted process) ends the stream.  The outer fuel
bounds the number of tokens, at most one per input character plus one. -/
def TokenizeLoop : Nat → Option Char → List Char → List Tok
  | 0, _, _ => []
  | fuel + 1, last, input =>
    match GetToken (input.length + 1) last input with
    | (.eof, _, _) => []
    | (.crash, _, _) => [.crash]
    | (t, last1, input1) => t :: TokenizeLoop fuel last1 input1

/-- Tokenize a whole source string, starting from the initial lexer state
last_char = a space, exactly as the static initializer in the source. -/
def Tokenize (s : String) : List Tok :=
  TokenizeLoop (s.length + 2) (some ' ') s.toList

/-- Expression AST nodes of ast.h: NumberExprAST, VariableExprAST,
BinaryExprAST (operator character plus owned left and right children),
CallExprAST (callee name plus owned argument list). -/
inductive ExprAST where
  | number (val : Rat)
  | var (name : String)
  | binary (op : Char) (lhs rhs : ExprAST)
  | call (callee : String) (args : List ExprAST)
deriving Repr

/-- PrototypeAST: function name and ordered parameter names. -/
structure PrototypeAST where
  name : String
  args : List String
deriving DecidableEq, Repr

/-- FunctionAST: a prototype plus one body expression. -/
structure FunctionAST where
  proto : PrototypeAST
  body : ExprAST
deriving Repr

/-- Diagnostics emitted through LogError and LogErrorP.  Each constructor
stands for one distinct message string in the source: unknownToken for
unknown token when expecting an expression (ParsePrimary),
expectedCloseParen for the missing closing parenthesis of a
parenthesized expression (ParseParenExpr), expectedCommaOrCloseParen for
the argument-list separator error (ParseIdentifierExpr),
expectedFunctionName and expectedOpenParenInProto and
expectedCloseParenInProto for the three prototype errors
(ParsePrototype). -/
inductive Diag where
  | unknownToken
  | expectedCloseParen
  | expectedCommaOrCloseParen
  | expectedFunctionName
  | expectedOpenParenInProto
  | expectedCloseParenInProto
deriving DecidableEq, Repr

/-- Outcome of a parse function: ok models a non-null AST pointer, err
models the nullptr failure signal, out is the artifact of exhausting the
explicit recursion fuel and never occurs for sufficient fuel. -/
inductive Res (α : Type) where
  | ok (val : α)
  | err
  | out

/-- Result triple of a parse function: outcome, remaining token stream,
diagnostics emitted (in order) during the call. -/
abbrev PR (α : Type) := Res α × List Tok × List Diag

/-- The parser lookahead cur_token: head of the token stream.  At end of
input the lexer returns the eof token forever. -/
def CurTok (ts : List Tok) : Tok := ts.headD .eof

/-- GetNextToken: consume the lookahead.  On empty input the stream stays
empty, so CurTok remains eof, matching the C lexer at EOF. -/
def GetNextToken (ts : List Tok) : List Tok := ts.tail

/-- GetTokenPrecedence from ast.h: -1 unless cur_token passes isascii
(the named token variants all have negative codes and fail it; characters
above 127 fail it too) and the BinopPrecedence table maps the character
to a positive precedence.  The std::map operator[] yields 0 for an
absent key, so the table is modelled as a total function with default 0. -/
def GetTokenPrecedence (tbl : Char → Int) (t : Tok) : Int :=
  match t with
  | .ch c =>
    if c.toNat ≤ 127 then
      if tbl c ≤ 0 then -1 else tbl c
    else -1
  | _ => -1

/-- The int-to-char narrowing applied when ParseBinOpRHS stores cur_token
as the BinaryExprAST operator.  It is only ever applied to tokens with
nonnegative precedence, which are single-character tokens. -/
def TokChar : Tok → Char
  | .ch c => c
  | _ => Char.ofNat 0

/-- Reference binary-operator precedence table.  Modelled from the spec:
the driver translation unit that populates BinopPrecedence (main.cpp) is
not among the source files; the spec gives the reference configuration
with the smaller-than sign at 10, plus and minus at 20, star at 40.
Absent keys default to 0 as with std::map operator[]. -/
def RefPrec : Char → Int := fun c =>
  if c = '<' then 10
  else if c = '+' then 20
  else if c = '-' then 20
  else if c = '*' then 40
  else 0

/-- ParseNumberExpr: build a NumberExprAST from NUM_VAL (carried by the
number token the caller dispatched on) and consume the token. -/
def ParseNumberExpr (v : Rat) (ts : List Tok) : PR ExprAST :=
  (.ok (.number v), GetNextToken ts, [])

mutual

/-- ParseExpression: one primary, then ParseBinOpRHS with minimum
precedence 0; failures of either sub-parse propagate. -/
def ParseExpression (tbl : Char → Int) : Nat → List Tok → PR ExprAST
  | 0, ts => (.out, ts, [])
  | fuel + 1, ts =>
    match ParsePrimary tbl fuel ts with
    | (.ok lhs, ts1, d1) =>
      match ParseBinOpRHS tbl fuel 0 lhs ts1 with
      | (r, ts2, d2) => (r, ts2, d1 ++ d2)
    | (.err, ts1, d1) => (.err, ts1, d1)
    | (.out, ts1, d1) => (.out, ts1, d1)

/-- ParsePrimary: dispatch on the lookahead tag exactly as the switch in
the source: identifier, number, opening parenthesis, otherwise the
unknown-token diagnostic. -/
def ParsePrimary (tbl : Char → Int) : Nat → List Tok → PR ExprAST
  | 0, ts => (.out, ts, [])
  | fuel + 1, ts =>
    match CurTok ts with
    | .ident s => ParseIdentifierExpr tbl fuel s ts
    | .num v => ParseNumberExpr v ts
    | t =>
      if t = .ch '(' then ParseParenExpr tbl fuel ts
      else (.err, ts, [Diag.unknownToken])

/-- ParseIdentifierExpr: consume the identifier; a plain variable unless
immediately followed by an opening parenthesis, in which case parse the
call argument list (empty when the next token already closes it) and
consume the closing parenthesis the loop stopped on. -/
def ParseIdentifierExpr (tbl : Char → Int) : Nat → String → List Tok → PR ExprAST
  | 0, _, ts => (.out, ts, [])
  | fuel + 1, idName, ts =>
    let ts1 := GetNextToken ts
    if CurTok ts1 ≠ .ch '(' then (.ok (.var idName), ts1, [])
    else
      let ts2 := GetNextToken ts1
      if CurTok ts2 = .ch ')' then (.ok (.call idName []), GetNextToken ts2, [])
      else
        match ParseArgsLoop tbl fuel [] ts2 with
        | (.ok args, ts3, d3) => (.ok (.call idName args), GetNextToken ts3, d3)
        | (.err, ts3, d3) => (.err, ts3, d3)
        | (.out, ts3, d3) => (.out, ts3, d3)

/-- The while(true) argument loop of ParseIdentifierExpr: parse one
argument expression, stop before a closing parenthesis, fail unless a
comma follows otherwise, consume the comma and continue. -/
def ParseArgsLoop (tbl : Char → Int) : Nat → List ExprAST → List Tok → PR (List ExprAST)
  | 0, _, ts => (.out, ts, [])
  | fuel + 1, args, ts =>
    match ParseExpression tbl fuel ts with
    | (.ok arg, ts1, d1) =>
      let args1 := args ++ [arg]
      if CurTok ts1 = .ch ')' then (.ok args1, ts1, d1)
      else if CurTok ts1 ≠ .ch ',' then (.err, ts1, d1 ++ [Diag.expectedCommaOrCloseParen])
      else
        match ParseArgsLoop tbl fuel args1 (GetNextToken ts1) with
        | (r, ts2, d2) => (r, ts2, d1 ++ d2)
    | (.err, ts1, d1) => (.err, ts1, d1)
    | (.out, ts1, d1) => (.out, ts1, d1)

/-- ParseParenExpr: consume the opening parenthesis, parse the inner
expression, require and consume the closing parenthesis; the inner
expression is returned unchanged. -/
def ParseParenExpr (tbl : Char → Int) : Nat → List Tok → PR ExprAST
  | 0, ts => (.out, ts, [])
  | fuel + 1, ts =>
    let ts1 := GetNextToken ts
    match ParseExpression tbl fuel ts1 with
    | (.ok v, ts2, d2) =>
      if CurTok ts2 ≠ .ch ')' then (.err, ts2, d2 ++ [Diag.expectedCloseParen])
      else (.ok v, GetNextToken ts2, d2)
    | (.err, ts2, d2) => (.err, ts2, d2)
    | (.out, ts2, d2) => (.out, ts2, d2)

/-- ParseBinOpRHS from ast.h.  The while(true) loop is the tail call with
the same minimum precedence: stop and return lhs when the lookahead
precedence drops below the minimum; otherwise consume the operator,
parse one primary, and when the following operator binds strictly
tighter, first recurse with minimum precedence one above the consumed
operator. -/
def ParseBinOpRHS (tbl : Char → Int) : Nat → Int → ExprAST → List Tok → PR ExprAST
  | 0, _, _, ts => (.out, ts, [])
  | fuel + 1, exprPrec, lhs, ts =>
    let tokPrec := GetTokenPrecedence tbl (CurTok ts)
    if tokPrec < exprPrec then (.ok lhs, ts, [])
    else
      let binop := TokChar (CurTok ts)
      let ts1 := GetNextToken ts
      match ParsePrimary tbl fuel ts1 with
      | (.ok rhs, ts2, d2) =>
        if tokPrec < GetTokenPrecedence tbl (CurTok ts2) then
          match ParseBinOpRHS tbl fuel (tokPrec + 1) rhs ts2 with
          | (.ok rhs2, ts3, d3) =>
            match ParseBinOpRHS tbl fuel exprPrec (.binary binop lhs rhs2) ts3 with
            | (r, ts4, d4) => (r, ts4, d2 ++ d3 ++ d4)
          | (.err, ts3, d3) => (.err, ts3, d2 ++ d3)
          | (.out, ts3, d3) => (.out, ts3, d2 ++ d3)
        else
          match ParseBinOpRHS tbl fuel exprPrec (.binary binop lhs rhs) ts2 with
          | (r, ts3, d3) => (r, ts3, d2 ++ d3)
      | (.err, ts2, d2) => (.err, ts2, d2)
      | (.out, ts2, d2) => (.out, ts2, d2)

end

/-- The argument-name loop of ParsePrototype: while the token obtained by
GetNextToken is an identifier, append its text.  Any other token simply
stops the loop; no uniqueness check is performed.  The head of the list
passed in is the token the first GetNextToken discards. -/
def ProtoArgsLoop : List Tok → List String → List String × List Tok
  | [], acc => (acc, [])
  | _ :: rest, acc =>
    match CurTok rest with
    | .ident s => ProtoArgsLoop rest (acc ++ [s])
    | _ => (acc, rest)

/-- ParsePrototype: function name identifier, opening parenthesis, a run
of identifier parameter names, closing parenthesis.  The three failure
points each emit their own diagnostic. -/
def ParsePrototype (ts : List Tok) : PR PrototypeAST :=
  match CurTok ts with
  | .ident fnName =>
    let ts1 := GetNextToken ts
    if CurTok ts1 ≠ .ch '(' then (.err, ts1, [Diag.expectedOpenParenInProto])
    else
      match ProtoArgsLoop ts1 [] with
      | (argNames, ts2) =>
        if CurTok ts2 ≠ .ch ')' then (.err, ts2, [Diag.expectedCloseParenInProto])
        else (.ok ⟨fnName, argNames⟩, GetNextToken ts2, [])
  | _ => (.err, ts, [Diag.expectedFunctionName])

/-- ParseDefinition: consume the def keyword, parse a prototype and a
body expression, combine into a FunctionAST; either failure propagates. -/
def ParseDefinition (tbl : Char → Int) (fuel : Nat) (ts : List Tok) : PR FunctionAST :=
  match ParsePrototype (GetNextToken ts) with
  | (.ok proto, ts2, d2) =>
    match ParseExpression tbl fuel ts2 with
    | (.ok e, ts3, d3) => (.ok ⟨proto, e⟩, ts3, d2 ++ d3)
    | (.err, ts3, d3) => (.err, ts3, d2 ++ d3)
    | (.out, ts3, d3) => (.out, ts3, d2 ++ d3)
  | (.err, ts2, d2) => (.err, ts2, d2)
  | (.out, ts2, d2) => (.out, ts2, d2)

/-- ParseExtern of the source: consume the extern keyword and parse a
bare prototype. -/
def ParseExternProto (ts : List Tok) : PR PrototypeAST :=
  ParsePrototype (GetNextToken ts)

/-- ParseTopLevelExpr: a bare expression wrapped in a FunctionAST with an
anonymous prototype (empty name, no parameters). -/
def ParseTopLevelExpr (tbl : Char → Int) (fuel : Nat) (ts : List Tok) : PR FunctionAST :=
  match ParseExpression tbl fuel ts with
  | (.ok e, ts1, d1) => (.ok ⟨⟨"", []⟩, e⟩, ts1, d1)
  | (.err, ts1, d1) => (.err, ts1, d1)
  | (.out, ts1, d1) => (.out, ts1, d1)

/-- HandleDefinition: on success keep the function; on failure skip one
token for error recovery.  Diagnostics were already emitted to stderr. -/
def HandleDefinition (tbl : Char → Int) (fuel : Nat) (ts : List Tok) :
    Option FunctionAST × List Tok :=
  match ParseDefinition tbl fuel ts with
  | (.ok f, ts1, _) => (some f, ts1)
  | (_, ts1, _) => (none, GetNextToken ts1)

/-- HandleExtern of the source: like HandleDefinition for extern
prototypes.  ParseExtern needs neither the precedence table nor fuel. -/
def HandleExternProto (ts : List Tok) : Option PrototypeAST × List Tok :=
  match ParseExternProto ts with
  | (.ok p, ts1, _) => (some p, ts1)
  | (_, ts1, _) => (none, GetNextToken ts1)

/-- HandleTopLevelExpr: like HandleDefinition for bare top-level
expressions. -/
def HandleTopLevelExpr (tbl : Char → Int) (fuel : Nat) (ts : List Tok) :
    Option FunctionAST × List Tok :=
  match ParseTopLevelExpr tbl fuel ts with
  | (.ok f, ts1, _) => (some f, ts1)
  | (_, ts1, _) => (none, GetNextToken ts1)

/-- What one MainLoop iteration reports to the user: a successfully
parsed definition, extern prototype, or top-level expression, or a
skipped token after a parse failure. -/
inductive TopEvent where
  | definitionEv (f : FunctionAST)
  | externEv (p : PrototypeAST)
  | topLevelEv (f : FunctionAST)
  | skippedEv
deriving Repr

/-- One dispatch of the MainLoop switch on a non-eof lookahead: a
semicolon is consumed silently; def and extern go to their handlers;
anything else is treated as a top-level expression. -/
def MainLoopStep (tbl : Char → Int) (fuel : Nat) (ts : List Tok) :
    Option TopEvent × List Tok :=
  match CurTok ts with
  | .eof => (none, ts)
  | .defKw =>
    match HandleDefinition tbl fuel ts with
    | (some f, ts1) => (some (.definitionEv f), ts1)
    | (none, ts1) => (some .skippedEv, ts1)
  | .externKw =>
    match HandleExternProto ts with
    | (some p, ts1) => (some (.externEv p), ts1)
    | (none, ts1) => (some .skippedEv, ts1)
  | t =>
    if t = .ch ';' then (none, GetNextToken ts)
    else
      match HandleTopLevelExpr tbl fuel ts with
      | (some f, ts1) => (some (.topLevelEv f), ts1)
      | (none, ts1) => (some .skippedEv, ts1)

/-- MainLoop: iterate MainLoopStep until the lookahead is eof, collecting
the events in order.  The fuel bounds the number of iterations. -/
def MainLoop (tbl : Char → Int) : Nat → List Tok → List TopEvent × List Tok
  | 0, ts => ([], ts)
  | fuel + 1, ts =>
    match CurTok ts with
    | .eof => ([], ts)
    | _ =>
      match MainLoopStep tbl fuel ts with
      | (ev, ts1) =>
        match MainLoop tbl fuel ts1 with
        | (evs, ts2) => (ev.toList ++ evs, ts2)

/-- Invariant relating a parse call on token stream ts to its result
triple: the parser only consumes tokens (never rewinds), a successful
parse emits no diagnostic, and a failed parse emits exactly one. -/
def PInv {α : Type} (ts : List Tok) : PR α → Prop
  | (r, ts1, d) =>
    ts1.length ≤ ts.length ∧ (∀ a, r = Res.ok a → d = []) ∧ (r = Res.err → d.length = 1)

/-- Token stream of a chain of binary operators applied to numeric
operands: for each pair, one operator character token and one number
token. -/
def ChainToks (ps : List (Char × Rat)) : List Tok :=
  ps.foldr (fun p acc => Tok.ch p.1 :: Tok.num p.2 :: acc) []

/-- The left-nested tree an equal-precedence operator chain must parse
to: each step takes everything so far as the left child. -/
def LeftNest (e0 : ExprAST) (ps : List (Char × Rat)) : ExprAST :=
  ps.foldl (fun acc p => ExprAST.binary p.1 acc (ExprAST.number p.2)) e0

theorem length_getNextToken_le (ts : List Tok) : (GetNextToken ts).length ≤ ts.length := by
  cases ts <;> simp [GetNextToken]

theorem length_getNextToken_eq (ts : List Tok) : (GetNextToken ts).length = ts.length - 1 := by
  cases ts <;> simp [GetNextToken]

/-- The three PInv facts for every expression-level parse function at
every fuel level, proved by one induction on the fuel. -/
theorem parseInvariants (tbl : Char → Int) : ∀ fuel : Nat,
    (∀ ts, PInv ts (ParseExpression tbl fuel ts)) ∧
    (∀ ts, PInv ts (ParsePrimary tbl fuel ts)) ∧
    (∀ s ts, PInv ts (ParseIdentifierExpr tbl fuel s ts)) ∧
    (∀ args ts, PInv ts (ParseArgsLoop tbl fuel args ts)) ∧
    (∀ ts, PInv ts (ParseParenExpr tbl fuel ts)) ∧
    (∀ p lhs ts, PInv ts (ParseBinOpRHS tbl fuel p lhs ts)) := by
  intro fuel
  induction fuel with
  | zero =>
    refine ⟨fun ts => ?_, fun ts => ?_, fun s ts => ?_, fun args ts => ?_, fun ts => ?_,
      fun p lhs ts => ?_⟩ <;>
      simp [PInv, ParseExpression, ParsePrimary, ParseIdentifierExpr, ParseArgsLoop,
        ParseParenExpr, ParseBinOpRHS]
  | succ n ih =>
    obtain ⟨ihE, ihP, ihI, ihA, ihPar, ihB⟩ := ih
    have hExpr : ∀ ts, PInv ts (ParseExpression tbl (n + 1) ts) := by
      intro ts
      have hP := ihP ts
      rcases hPe : ParsePrimary tbl n ts with ⟨r1, ts1, d1⟩
      rw [hPe] at hP
      cases r1 with
      | ok lhs =>
        obtain ⟨hl1, hok1, -⟩ := hP
        have hd1 : d1 = [] := hok1 lhs rfl
        subst hd1
        have hB := ihB 0 lhs ts1
        rcases hBe : ParseBinOpRHS tbl n 0 lhs ts1 with ⟨r2, ts2, d2⟩
        rw [hBe] at hB
        obtain ⟨hl2, hok2, herr2⟩ := hB
        simp only [ParseExpression, hPe, hBe, List.nil_append]
        exact ⟨le_trans hl2 hl1, hok2, herr2⟩
      | err =>
        simp only [ParseExpression, hPe]
        exact hP
      | out =>
        simp only [ParseExpression, hPe]
        exact hP
    have hPrim : ∀ ts, PInv ts (ParsePrimary tbl (n + 1) ts) := by
      intro ts
      cases hc : CurTok ts with
      | ident s =>
        simp only [ParsePrimary, hc]
        exact ihI s ts
      | num v =>
        simp only [ParsePrimary, hc, ParseNumberExpr]
        exact ⟨length_getNextToken_le ts, fun a _ => rfl, fun h => Res.noConfusion h⟩
      | ch c =>
        by_cases h2 : c = '('
        · subst h2
          simp only [ParsePrimary, hc, if_pos rfl]
          exact ihPar ts
        · simp [ParsePrimary, hc, h2, PInv]
      | eof => simp [ParsePrimary, hc, PInv]
      | defKw => simp [ParsePrimary, hc, PInv]
      | externKw => simp [ParsePrimary, hc, PInv]
      | crash => simp [ParsePrimary, hc, PInv]
    have hIdent : ∀ s ts, PInv ts (ParseIdentifierExpr tbl (n + 1) s ts) := by
      intro s ts
      have t1 := length_getNextToken_le ts
      have t2 := length_getNextToken_le (GetNextToken ts)
      have t3 := length_getNextToken_le (GetNextToken (GetNextToken ts))
      by_cases h1 : CurTok (GetNextToken ts) = Tok.ch '('
      · by_cases h2 : CurTok (GetNextToken (GetNextToken ts)) = Tok.ch ')'
        · simp only [ParseIdentifierExpr, h1, h2, ne_eq, not_true_eq_false, if_false, if_true,
            ite_true, ite_false]
          exact ⟨by omega, fun a _ => rfl, fun h => Res.noConfusion h⟩
        · have hA := ihA [] (GetNextToken (GetNextToken ts))
          rcases hAe : ParseArgsLoop tbl n [] (GetNextToken (GetNextToken ts)) with ⟨r3, ts3, d3⟩
          rw [hAe] at hA
          obtain ⟨hl3, hok3, herr3⟩ := hA
          have t4 := length_getNextToken_le ts3
          cases r3 with
          | ok args =>
            have hd3 : d3 = [] := hok3 args rfl
            subst hd3
            simp only [ParseIdentifierExpr, h1, h2, hAe, ne_eq, not_true_eq_false, if_false,
              if_true, ite_true, ite_false]
            exact ⟨by omega, fun a _ => rfl, fun h => Res.noConfusion h⟩
          | err =>
            simp only [ParseIdentifierExpr, h1, h2, hAe, ne_eq, not_true_eq_false, if_false,
              if_true, ite_true, ite_false]
            exact ⟨by omega, fun a h => Res.noConfusion h, fun _ => herr3 rfl⟩
          | out =>
            simp only [ParseIdentifierExpr, h1, h2, hAe, ne_eq, not_true_eq_false, if_false,
              if_true, ite_true, ite_false]
            exact ⟨by omega, fun a h => Res.noConfusion h, fun h => Res.noConfusion h⟩
      · simp only [ParseIdentifierExpr, h1, ne_eq, not_false_eq_true, if_true, ite_true]
        exact ⟨t1, fun a _ => rfl, fun h => Res.noConfusion h⟩
    have hArgs : ∀ args ts, PInv ts (ParseArgsLoop tbl (n + 1) args ts) := by
      intro args ts
      have hE := ihE ts
      rcases hEe : ParseExpression tbl n ts with ⟨r1, ts1, d1⟩
      rw [hEe] at hE
      cases r1 with
      | ok arg =>
        obtain ⟨hl1, hok1, -⟩ := hE
        have hd1 : d1 = [] := hok1 arg rfl
        subst hd1
        by_cases h1 : CurTok ts1 = Tok.ch ')'
        · simp only [ParseArgsLoop, hEe, h1, if_pos rfl, ite_true]
          exact ⟨hl1, fun a _ => rfl, fun h => Res.noConfusion h⟩
        · by_cases h2 : CurTok ts1 = Tok.ch ','
          · have hA := ihA (args ++ [arg]) (GetNextToken ts1)
            rcases hAe : ParseArgsLoop tbl n (args ++ [arg]) (GetNextToken ts1) with ⟨r2, ts2, d2⟩
            rw [hAe] at hA
            obtain ⟨hl2, hok2, herr2⟩ := hA
            have t1 := length_getNextToken_le ts1
            simp only [ParseArgsLoop, hEe, h1, h2, hAe, ne_eq, not_true_eq_false, if_false,
              ite_false, List.nil_append]
            exact ⟨by omega, hok2, herr2⟩
          · simp only [ParseArgsLoop, hEe, h1, h2, ne_eq, not_false_eq_true, if_false, if_true,
              ite_false, ite_true, List.nil_append]
            exact ⟨hl1, fun a h => Res.noConfusion h, fun _ => rfl⟩
      | err =>
        obtain ⟨hl1, -, herr1⟩ := hE
        simp only [ParseArgsLoop, hEe]
        exact ⟨hl1, fun a h => Res.noConfusion h, fun _ => herr1 rfl⟩
      | out =>
        obtain ⟨hl1, -, -⟩ := hE
        simp only [ParseArgsLoop, hEe]
        exact ⟨hl1, fun a h => Res.noConfusion h, fun h => Res.noConfusion h⟩
    have hParen : ∀ ts, PInv ts (ParseParenExpr tbl (n + 1) ts) := by
      intro ts
      have hts := length_getNextToken_le ts
      have hE := ihE (GetNextToken ts)
      rcases hEe : ParseExpression tbl n (GetNextToken ts) with ⟨r1, ts1, d1⟩
      rw [hEe] at hE
      obtain ⟨hl1, hok1, herr1⟩ := hE
      cases r1 with
      | ok v =>
        have hd1 : d1 = [] := hok1 v rfl
        subst hd1
        have t1 := length_getNextToken_le ts1
        by_cases h1 : CurTok ts1 = Tok.ch ')'
        · simp only [ParseParenExpr, hEe, h1, ne_eq, not_true_eq_false, if_false, ite_false]
          exact ⟨by omega, fun a _ => rfl, fun h => Res.noConfusion h⟩
        · simp only [ParseParenExpr, hEe, h1, ne_eq, not_false_eq_true, if_true, ite_true,
            List.nil_append]
          exact ⟨by omega, fun a h => Res.noConfusion h, fun _ => rfl⟩
      | err =>
        simp only [ParseParenExpr, hEe]
        exact ⟨by omega, hok1, herr1⟩
      | out =>
        simp only [ParseParenExpr, hEe]
        exact ⟨by omega, hok1, herr1⟩
    have hBin : ∀ p lhs ts, PInv ts (ParseBinOpRHS tbl (n + 1) p lhs ts) := by
      intro p lhs ts
      by_cases h0 : GetTokenPrecedence tbl (CurTok ts) < p
      · simp only [ParseBinOpRHS, h0, if_pos, ite_true]
        exact ⟨le_refl _, fun a _ => rfl, fun h => Res.noConfusion h⟩
      · have hts := length_getNextToken_le ts
        have hP := ihP (GetNextToken ts)
        rcases hPe : ParsePrimary tbl n (GetNextToken ts) with ⟨r1, ts1, d1⟩
        rw [hPe] at hP
        obtain ⟨hl1, hok1, herr1⟩ := hP
        cases r1 with
        | ok rhs =>
          have hd1 : d1 = [] := hok1 rhs rfl
          subst hd1
          by_cases h2 : GetTokenPrecedence tbl (CurTok ts) <
              GetTokenPrecedence tbl (CurTok ts1)
          · have hB1 := ihB (GetTokenPrecedence tbl (CurTok ts) + 1) rhs ts1
            rcases hB1e : ParseBinOpRHS tbl n (GetTokenPrecedence tbl (CurTok ts) + 1) rhs ts1
              with ⟨r2, ts2, d2⟩
            rw [hB1e] at hB1
            obtain ⟨hl2, hok2, herr2⟩ := hB1
            cases r2 with
            | ok rhs2 =>
              have hd2 : d2 = [] := hok2 rhs2 rfl
              subst hd2
              have hB2 := ihB p (ExprAST.binary (TokChar (CurTok ts)) lhs rhs2) ts2
              rcases hB2e : ParseBinOpRHS tbl n p (ExprAST.binary (TokChar (CurTok ts)) lhs rhs2)
                ts2 with ⟨r3, ts3, d3⟩
              rw [hB2e] at hB2
              obtain ⟨hl3, hok3, herr3⟩ := hB2
              simp only [ParseBinOpRHS, h0, h2, hPe, hB1e, hB2e, if_false, if_true, ite_true,
                ite_false, List.nil_append]
              exact ⟨by omega, hok3, herr3⟩
            | err =>
              simp only [ParseBinOpRHS, h0, h2, hPe, hB1e, if_false, if_true, ite_true,
                ite_false, List.nil_append]
              exact ⟨by omega, fun a h => Res.noConfusion h, fun _ => herr2 rfl⟩
            | out =>
              simp only [ParseBinOpRHS, h0, h2, hPe, hB1e, if_false, if_true, ite_true,
                ite_false, List.nil_append]
              exact ⟨by omega, fun a h => Res.noConfusion h, fun h => Res.noConfusion h⟩
          · have hB2 := ihB p (ExprAST.binary (TokChar (CurTok ts)) lhs rhs) ts1
            rcases hB2e : ParseBinOpRHS tbl n p (ExprAST.binary (TokChar (CurTok ts)) lhs rhs)
              ts1 with ⟨r3, ts3, d3⟩
            rw [hB2e] at hB2
            obtain ⟨hl3, hok3, herr3⟩ := hB2
            simp only [ParseBinOpRHS, h0, h2, hPe, hB2e, if_false, if_true, ite_true, ite_false,
              List.nil_append]
            exact ⟨by omega, hok3, herr3⟩
        | err =>
          simp only [ParseBinOpRHS, h0, hPe, if_false, ite_false]
          exact ⟨by omega, hok1, herr1⟩
        | out =>
          simp only [ParseBinOpRHS, h0, hPe, if_false, ite_false]
          exact ⟨by omega, hok1, herr1⟩
    exact ⟨hExpr, hPrim, hIdent, hArgs, hParen, hBin⟩

theorem length_getNextToken_lt (ts : List Tok) (h : ts ≠ []) :
    (GetNextToken ts).length < ts.length := by
  cases ts with
  | nil => exact absurd rfl h
  | cons t rest => simp [GetNextToken]

theorem curTok_ne_eof_nonempty {ts : List Tok} (h : CurTok ts ≠ .eof) : ts ≠ [] := by
  intro he
  subst he
  exact h rfl

theorem protoArgsLoop_len : ∀ (ts : List Tok) (acc : List String),
    (ProtoArgsLoop ts acc).2.length ≤ ts.length := by
  intro ts
  induction ts with
  | nil => intro acc; simp [ProtoArgsLoop]
  | cons t rest ih =>
    intro acc
    cases hc : CurTok rest with
    | ident s =>
      simp only [ProtoArgsLoop, hc]
      exact le_trans (ih (acc ++ [s])) (Nat.le_succ _)
    | eof => simp only [ProtoArgsLoop, hc, List.length_cons]; omega
    | defKw => simp only [ProtoArgsLoop, hc, List.length_cons]; omega
    | externKw => simp only [ProtoArgsLoop, hc, List.length_cons]; omega
    | num v => simp only [ProtoArgsLoop, hc, List.length_cons]; omega
    | ch c => simp only [ProtoArgsLoop, hc, List.length_cons]; omega
    | crash => simp only [ProtoArgsLoop, hc, List.length_cons]; omega

theorem parsePrototype_inv (ts : List Tok) : PInv ts (ParsePrototype ts) := by
  cases hc : CurTok ts with
  | ident fnName =>
    have t1 := length_getNextToken_le ts
    by_cases h1 : CurTok (GetNextToken ts) = Tok.ch '('
    · rcases hPa : ProtoArgsLoop (GetNextToken ts) [] with ⟨argNames, ts2⟩
      have hlen : ts2.length ≤ (GetNextToken ts).length := by
        have := protoArgsLoop_len (GetNextToken ts) []
        rw [hPa] at this
        exact this
      have t2 := length_getNextToken_le ts2
      by_cases h2 : CurTok ts2 = Tok.ch ')'
      · simp only [ParsePrototype, hc, h1, h2, hPa, ne_eq, not_true_eq_false, if_false,
          ite_false]
        exact ⟨by omega, fun a _ => rfl, fun h => Res.noConfusion h⟩
      · simp only [ParsePrototype, hc, h1, h2, hPa, ne_eq, not_true_eq_false, if_false,
          ite_false, not_false_eq_true, if_true, ite_true]
        exact ⟨by omega, fun a h => Res.noConfusion h, fun _ => rfl⟩
    · simp only [ParsePrototype, hc, h1, ne_eq, not_false_eq_true, if_true, ite_true]
      exact ⟨t1, fun a h => Res.noConfusion h, fun _ => rfl⟩
  | eof => simp [ParsePrototype, hc, PInv]
  | defKw => simp [ParsePrototype, hc, PInv]
  | externKw => simp [ParsePrototype, hc, PInv]
  | num v => simp [ParsePrototype, hc, PInv]
  | ch c => simp [ParsePrototype, hc, PInv]
  | crash => simp [ParsePrototype, hc, PInv]

theorem parseDefinition_inv (tbl : Char → Int) (fuel : Nat) (ts : List Tok) :
    PInv (GetNextToken ts) (ParseDefinition tbl fuel ts) := by
  have hP := parsePrototype_inv (GetNextToken ts)
  rcases hPe : ParsePrototype (GetNextToken ts) with ⟨r1, ts2, d2⟩
  rw [hPe] at hP
  cases r1 with
  | ok proto =>
    obtain ⟨hl1, hok1, -⟩ := hP
    have hd : d2 = [] := hok1 proto rfl
    subst hd
    have hE := (parseInvariants tbl fuel).1 ts2
    rcases hEe : ParseExpression tbl fuel ts2 with ⟨r2, ts3, d3⟩
    rw [hEe] at hE
    obtain ⟨hl2, hok2, herr2⟩ := hE
    cases r2 with
    | ok e =>
      simp only [ParseDefinition, hPe, hEe, List.nil_append]
      exact ⟨le_trans hl2 hl1, fun a _ => hok2 e rfl, fun h => Res.noConfusion h⟩
    | err =>
      simp only [ParseDefinition, hPe, hEe, List.nil_append]
      exact ⟨le_trans hl2 hl1, fun a h => Res.noConfusion h, fun _ => herr2 rfl⟩
    | out =>
      simp only [ParseDefinition, hPe, hEe, List.nil_append]
      exact ⟨le_trans hl2 hl1, fun a h => Res.noConfusion h, fun h => Res.noConfusion h⟩
  | err =>
    obtain ⟨hl1, -, herr1⟩ := hP
    simp only [ParseDefinition, hPe]
    exact ⟨hl1, fun a h => Res.noConfusion h, fun _ => herr1 rfl⟩
  | out =>
    obtain ⟨hl1, -, -⟩ := hP
    simp only [ParseDefinition, hPe]
    exact ⟨hl1, fun a h => Res.noConfusion h, fun h => Res.noConfusion h⟩

theorem parsePrimary_ok_lt (tbl : Char → Int) :
    ∀ (fuel : Nat) (ts : List Tok) (e : ExprAST) (ts1 : List Tok) (d : List Diag),
      ParsePrimary tbl fuel ts = (Res.ok e, ts1, d) → ts1.length < ts.length := by
  intro fuel ts e ts1 d h
  cases fuel with
  | zero => simp [ParsePrimary] at h
  | succ n =>
    cases hc : CurTok ts with
    | ident s =>
      have hts : ts ≠ [] := curTok_ne_eof_nonempty (by simp [hc])
      have hpos := List.length_pos.mpr hts
      have e1 := length_getNextToken_eq ts
      have e2 := length_getNextToken_eq (GetNextToken ts)
      have e3 := length_getNextToken_eq (GetNextToken (GetNextToken ts))
      simp only [ParsePrimary, hc] at h
      cases n with
      | zero => simp [ParseIdentifierExpr] at h
      | succ m =>
        by_cases h1 : CurTok (GetNextToken ts) = Tok.ch '('
        · by_cases h2 : CurTok (GetNextToken (GetNextToken ts)) = Tok.ch ')'
          · simp only [ParseIdentifierExpr, h1, h2, ne_eq, not_true_eq_false, if_false,
              ite_false, if_true, ite_true, Prod.mk.injEq] at h
            obtain ⟨-, h3, -⟩ := h
            rw [← h3]
            have e4 := length_getNextToken_eq (GetNextToken (GetNextToken (GetNextToken ts)))
            omega
          · rcases hAe : ParseArgsLoop tbl m [] (GetNextToken (GetNextToken ts))
              with ⟨r3, ts3, d3⟩
            have hAl : ts3.length ≤ (GetNextToken (GetNextToken ts)).length := by
              have := (parseInvariants tbl m).2.2.2.1 [] (GetNextToken (GetNextToken ts))
              rw [hAe] at this
              exact this.1
            simp only [ParseIdentifierExpr, h1, h2, hAe, ne_eq, not_true_eq_false, if_false,
              ite_false, if_true, ite_true] at h
            cases r3 with
            | ok args =>
              simp only [Prod.mk.injEq] at h
              obtain ⟨-, h3, -⟩ := h
              rw [← h3]
              have e4 := length_getNextToken_eq ts3
              omega
            | err => simp at h
            | out => simp at h
        · simp only [ParseIdentifierExpr, h1, ne_eq, not_false_eq_true, if_true, ite_true,
            Prod.mk.injEq] at h
          obtain ⟨-, h3, -⟩ := h
          rw [← h3]
          exact length_getNextToken_lt ts hts
    | num v =>
      have hts : ts ≠ [] := curTok_ne_eof_nonempty (by simp [hc])
      simp only [ParsePrimary, hc, ParseNumberExpr, Prod.mk.injEq] at h
      obtain ⟨-, h3, -⟩ := h
      rw [← h3]
      exact length_getNextToken_lt ts hts
    | ch c =>
      have hts : ts ≠ [] := curTok_ne_eof_nonempty (by simp [hc])
      have hpos := List.length_pos.mpr hts
      have e1 := length_getNextToken_eq ts
      by_cases hpar : c = '('
      · subst hpar
        simp only [ParsePrimary, hc, if_true] at h
        cases n with
        | zero => simp [ParseParenExpr] at h
        | succ m =>
          rcases hEe : ParseExpression tbl m (GetNextToken ts) with ⟨r1, ts2, d2⟩
          have hEl : ts2.length ≤ (GetNextToken ts).length := by
            have := (parseInvariants tbl m).1 (GetNextToken ts)
            rw [hEe] at this
            exact this.1
          cases r1 with
          | ok v =>
            simp only [ParseParenExpr, hEe] at h
            by_cases h1 : CurTok ts2 = Tok.ch ')'
            · rw [h1] at h
              rw [if_neg (by simp)] at h
              have h3 : GetNextToken ts2 = ts1 := congrArg (fun q => q.2.1) h
              have h4 : (GetNextToken ts2).length = ts1.length := by rw [h3]
              have e2 := length_getNextToken_eq ts2
              omega
            · simp [h1] at h
          | err => simp [ParseParenExpr, hEe] at h
          | out => simp [ParseParenExpr, hEe] at h
      · simp [ParsePrimary, hc, hpar] at h
    | eof => simp [ParsePrimary, hc] at h
    | defKw => simp [ParsePrimary, hc] at h
    | externKw => simp [ParsePrimary, hc] at h
    | crash => simp [ParsePrimary, hc] at h

theorem parseExpression_ok_lt (tbl : Char → Int) (fuel : Nat) (ts : List Tok) (e : ExprAST)
    (ts1 : List Tok) (d : List Diag) (h : ParseExpression tbl fuel ts = (Res.ok e, ts1, d)) :
    ts1.length < ts.length := by
  cases fuel with
  | zero => simp [ParseExpression] at h
  | succ n =>
    rcases hPe : ParsePrimary tbl n ts with ⟨r1, ts2, d1⟩
    simp only [ParseExpression, hPe] at h
    cases r1 with
    | ok lhs =>
      have hp := parsePrimary_ok_lt tbl n ts lhs ts2 d1 hPe
      rcases hBe : ParseBinOpRHS tbl n 0 lhs ts2 with ⟨r2, ts3, d2⟩
      have hb : ts3.length ≤ ts2.length := by
        have := (parseInvariants tbl n).2.2.2.2.2 0 lhs ts2
        rw [hBe] at this
        exact this.1
      simp only [hBe] at h
      have h3 : ts3 = ts1 := congrArg (fun q => q.2.1) h
      have h4 : ts3.length = ts1.length := by rw [h3]
      omega
    | err => simp at h
    | out => simp at h

theorem handleTopLevelExpr_lt (tbl : Char → Int) (fuel : Nat) (ts : List Tok)
    (hpos : 0 < ts.length) : (HandleTopLevelExpr tbl fuel ts).2.length < ts.length := by
  rcases hEe : ParseExpression tbl fuel ts with ⟨r1, ts1, d1⟩
  have hl : ts1.length ≤ ts.length := by
    have := (parseInvariants tbl fuel).1 ts
    rw [hEe] at this
    exact this.1
  have e1 := length_getNextToken_eq ts1
  cases r1 with
  | ok e =>
    have := parseExpression_ok_lt tbl fuel ts e ts1 d1 hEe
    simp only [HandleTopLevelExpr, ParseTopLevelExpr, hEe]
    exact this
  | err =>
    simp only [HandleTopLevelExpr, ParseTopLevelExpr, hEe]
    omega
  | out =>
    simp only [HandleTopLevelExpr, ParseTopLevelExpr, hEe]
    omega

theorem mainLoopStep_progress (tbl : Char → Int) (fuel : Nat) (ts : List Tok)
    (h : CurTok ts ≠ Tok.eof) : (MainLoopStep tbl fuel ts).2.length < ts.length := by
  have hne : ts ≠ [] := curTok_ne_eof_nonempty h
  have hpos : 0 < ts.length := List.length_pos.mpr hne
  have e0 := length_getNextToken_eq ts
  cases hc : CurTok ts with
  | eof => exact absurd hc h
  | defKw =>
    have hD := parseDefinition_inv tbl fuel ts
    rcases hDe : ParseDefinition tbl fuel ts with ⟨r1, ts1, d1⟩
    rw [hDe] at hD
    obtain ⟨hl1, -, -⟩ := hD
    have e1 := length_getNextToken_eq ts1
    cases r1 with
    | ok f => simp only [MainLoopStep, hc, HandleDefinition, hDe]; omega
    | err => simp only [MainLoopStep, hc, HandleDefinition, hDe]; omega
    | out => simp only [MainLoopStep, hc, HandleDefinition, hDe]; omega
  | externKw =>
    have hP := parsePrototype_inv (GetNextToken ts)
    rcases hPe : ParsePrototype (GetNextToken ts) with ⟨r1, ts1, d1⟩
    rw [hPe] at hP
    obtain ⟨hl1, -, -⟩ := hP
    have e1 := length_getNextToken_eq ts1
    cases r1 with
    | ok p =>
      simp only [MainLoopStep, hc, HandleExternProto, ParseExternProto, hPe]
      omega
    | err =>
      simp only [MainLoopStep, hc, HandleExternProto, ParseExternProto, hPe]
      omega
    | out =>
      simp only [MainLoopStep, hc, HandleExternProto, ParseExternProto, hPe]
      omega
  | ident s =>
    simp only [MainLoopStep, hc]
    rw [if_neg (by simp)]
    rcases hH : HandleTopLevelExpr tbl fuel ts with ⟨o, ts1⟩
    have := handleTopLevelExpr_lt tbl fuel ts hpos
    rw [hH] at this
    cases o <;> simpa using this
  | num v =>
    simp only [MainLoopStep, hc]
    rw [if_neg (by simp)]
    rcases hH : HandleTopLevelExpr tbl fuel ts with ⟨o, ts1⟩
    have := handleTopLevelExpr_lt tbl fuel ts hpos
    rw [hH] at this
    cases o <;> simpa using this
  | crash =>
    simp only [MainLoopStep, hc]
    rw [if_neg (by simp)]
    rcases hH : HandleTopLevelExpr tbl fuel ts with ⟨o, ts1⟩
    have := handleTopLevelExpr_lt tbl fuel ts hpos
    rw [hH] at this
    cases o <;> simpa using this
  | ch c =>
    by_cases hsc : c = ';'
    · subst hsc
      simp only [MainLoopStep, hc, if_true]
      show (GetNextToken ts).length < ts.length
      omega
    · simp only [MainLoopStep, hc]
      rw [if_neg (by simp [hsc])]
      rcases hH : HandleTopLevelExpr tbl fuel ts with ⟨o, ts1⟩
      have := handleTopLevelExpr_lt tbl fuel ts hpos
      rw [hH] at this
      cases o <;> simpa using this

/-- C1: parsing 1+2*3 under the reference precedence table produces the
plus node with the number 1 on the left and the star node over 2 and 3
on the right, that is 1+(2*3) and not (1+2)*3: the strictly
higher-precedence star following the plus binds its right-hand side
first in ParseBinOpRHS. -/
theorem precedence_climbing_1_plus_2_times_3 :
    ParseExpression RefPrec 9 (Tokenize ("1+2*3")) =
      (.ok (.binary '+' (.number 1) (.binary '*' (.number 2) (.number 3))), [], [])
    ∧ ParseExpression RefPrec 9 (Tokenize ("1+2*3")) ≠
      (.ok (.binary '*' (.binary '+' (.number 1) (.number 2)) (.number 3)), [], []) := by
  constructor
  · rfl
  · intro h
    rw [show ParseExpression RefPrec 9 (Tokenize ("1+2*3")) =
        (.ok (.binary '+' (.number 1) (.binary '*' (.number 2) (.number 3))), [], []) from rfl] at h
    simp at h

/-- C3: on the malformed numeric text 1.2.3 the lexer does not fail; it
hands the whole scanned string to std::stod, which converts the longest
valid prefix 1.2 and ignores the rest, so GetToken returns a number
token carrying the silently truncated value 12/10. -/
theorem getToken_truncates_malformed_numeric :
    Tokenize ("1.2.3") = [Tok.num (mkRat 12 10)]
    ∧ Stod ("1.2.3") = some (mkRat 12 10) := by
  exact ⟨rfl, rfl⟩

/-- C4: the generic whitespace loop of GetToken calls the libc isspace,
which is true on newline and carriage return, so a pending newline IS
discarded by the initial whitespace skip: from the state where the
pending character is a newline and the remaining input is the digit 1,
GetToken returns the number token 1 rather than a single-character
newline token.  The helper IsSpace defined in the same source file (and
never called) would not have skipped it. -/
theorem whitespace_skip_consumes_newline :
    IsSpace '\n' = false
    ∧ IsSpaceLibc (some '\n') = true
    ∧ SkipSpaceLoop (some '\n') [] = (none, [])
    ∧ GetToken 2 (some '\n') ['1'] = (.num 1, none, [])
    ∧ Tokenize ("\n1") = [Tok.num 1] := by
  exact ⟨rfl, rfl, rfl, rfl, rfl⟩

/-- C8: comments are transparent: after a hash the lexer discards the
rest of the line and produces the following token, so the input with an
embedded comment tokenizes as the number 1 followed by the number 2, and
a comment running to end of input produces nothing. -/
theorem comment_transparency :
    Tokenize ("1 # comment\n2") = [Tok.num 1, Tok.num 2]
    ∧ Tokenize ("1 # comment") = [Tok.num 1] := by
  exact ⟨rfl, rfl⟩

theorem binOpRHS_equal_precedence_chain (tbl : Char → Int) (prec : Int) (hp : 0 < prec) :
    ∀ (ps : List (Char × Rat)) (fuel : Nat) (lhs : ExprAST),
      ps.length + 2 ≤ fuel →
      (∀ q ∈ ps, q.1.toNat ≤ 127 ∧ tbl q.1 = prec) →
      ParseBinOpRHS tbl fuel 0 lhs (ChainToks ps) = (Res.ok (LeftNest lhs ps), [], []) := by
  intro ps
  induction ps with
  | nil =>
    intro fuel lhs hf _
    obtain ⟨f, rfl⟩ : ∃ f, fuel = f + 1 := ⟨fuel - 1, by omega⟩
    have hstop : GetTokenPrecedence tbl (CurTok (ChainToks [])) < 0 := by
      have : GetTokenPrecedence tbl (CurTok (ChainToks ([] : List (Char × Rat)))) = -1 := rfl
      omega
    simp only [ParseBinOpRHS]
    rw [if_pos hstop]
    rfl
  | cons q tl ih =>
    intro fuel lhs hf hops
    obtain ⟨c, v⟩ := q
    obtain ⟨hc127, hcp⟩ := hops (c, v) (List.mem_cons_self _ _)
    have hops2 : ∀ r ∈ tl, r.1.toNat ≤ 127 ∧ tbl r.1 = prec := fun r hr =>
      hops r (List.mem_cons_of_mem _ hr)
    have hf2 : tl.length + 3 ≤ fuel := by simpa using hf
    obtain ⟨g, rfl⟩ : ∃ g, fuel = g + 2 := ⟨fuel - 2, by omega⟩
    have hgtp : GetTokenPrecedence tbl (Tok.ch c) = prec := by
      simp only [GetTokenPrecedence, hcp]
      rw [if_pos hc127, if_neg (by omega)]
    have hchain : ChainToks ((c, v) :: tl) = Tok.ch c :: Tok.num v :: ChainToks tl := rfl
    have hnext : ¬(prec < GetTokenPrecedence tbl (CurTok (ChainToks tl))) := by
      cases tl with
      | nil =>
        have : GetTokenPrecedence tbl (CurTok (ChainToks ([] : List (Char × Rat)))) = -1 := rfl
        rw [this]
        omega
      | cons r tl2 =>
        obtain ⟨hr127, hrp⟩ := hops2 r (List.mem_cons_self _ _)
        have hcr : CurTok (ChainToks (r :: tl2)) = Tok.ch r.1 := rfl
        rw [hcr]
        have : GetTokenPrecedence tbl (Tok.ch r.1) = prec := by
          simp only [GetTokenPrecedence, hrp]
          rw [if_pos hr127, if_neg (by omega)]
        rw [this]
        omega
    have hcur : CurTok (Tok.ch c :: Tok.num v :: ChainToks tl) = Tok.ch c := rfl
    have hnextTok : GetNextToken (Tok.ch c :: Tok.num v :: ChainToks tl) =
        Tok.num v :: ChainToks tl := rfl
    have hprim : ParsePrimary tbl (g + 1) (Tok.num v :: ChainToks tl) =
        (Res.ok (ExprAST.number v), ChainToks tl, []) := rfl
    have hrec := ih (g + 1) (ExprAST.binary c lhs (ExprAST.number v)) (by omega) hops2
    rw [hchain]
    rw [ParseBinOpRHS]
    simp only [hcur, hgtp, hnextTok, hprim, TokChar]
    rw [if_neg (show ¬(prec < (0 : Int)) by omega), if_neg hnext]
    simp only [hrec, List.nil_append]
    simp [LeftNest]

/-- C5: error recovery makes forward progress.  First, on the input of a
malformed top-level construct (two stray closing parentheses) followed by
a well-formed definition of g, the top-level loop skips one token per
failure and then successfully parses g.  Second, in general, one
iteration of the top-level loop dispatched on any non-eof lookahead
strictly decreases the number of remaining tokens, whether the parse
succeeds or fails, so the loop never repeats without consuming input. -/
theorem error_recovery_progress :
    MainLoop RefPrec 32 (Tokenize (")) def g() 1")) =
      ([.skippedEv, .skippedEv, .definitionEv ⟨⟨"g", []⟩, .number 1⟩], [])
    ∧ ∀ (tbl : Char → Int) (fuel : Nat) (ts : List Tok), CurTok ts ≠ Tok.eof →
        (MainLoopStep tbl fuel ts).2.length < ts.length :=
  ⟨rfl, fun tbl fuel ts h => mainLoopStep_progress tbl fuel ts h⟩

theorem error_recovery_progress_witness :
    (MainLoopStep RefPrec 0 [Tok.ch ';']).2.length < [Tok.ch ';'].length :=
  error_recovery_progress.2 RefPrec 0 [Tok.ch ';'] (by decide)

/-- C6: failure propagation discipline.  For every parse function, a
successful parse emits no diagnostic and a failed parse emits exactly one
diagnostic in total (the one from the failure origin; every caller on the
stack propagates the failure signal without adding its own diagnostic and
without returning a node, as the err result carries no AST value). -/
theorem parse_failure_propagation (tbl : Char → Int) (fuel : Nat) :
    (∀ ts e ts1 d, ParseExpression tbl fuel ts = (Res.ok e, ts1, d) → d = []) ∧
    (∀ ts ts1 d, ParseExpression tbl fuel ts = (Res.err, ts1, d) → d.length = 1) ∧
    (∀ ts e ts1 d, ParsePrimary tbl fuel ts = (Res.ok e, ts1, d) → d = []) ∧
    (∀ ts ts1 d, ParsePrimary tbl fuel ts = (Res.err, ts1, d) → d.length = 1) ∧
    (∀ ts e ts1 d, ParseParenExpr tbl fuel ts = (Res.ok e, ts1, d) → d = []) ∧
    (∀ ts ts1 d, ParseParenExpr tbl fuel ts = (Res.err, ts1, d) → d.length = 1) ∧
    (∀ p lhs ts e ts1 d, ParseBinOpRHS tbl fuel p lhs ts = (Res.ok e, ts1, d) → d = []) ∧
    (∀ p lhs ts ts1 d, ParseBinOpRHS tbl fuel p lhs ts = (Res.err, ts1, d) → d.length = 1) ∧
    (∀ ts p ts1 d, ParsePrototype ts = (Res.ok p, ts1, d) → d = []) ∧
    (∀ ts ts1 d, ParsePrototype ts = (Res.err, ts1, d) → d.length = 1) ∧
    (∀ ts f ts1 d, ParseDefinition tbl fuel ts = (Res.ok f, ts1, d) → d = []) ∧
    (∀ ts ts1 d, ParseDefinition tbl fuel ts = (Res.err, ts1, d) → d.length = 1) ∧
    (∀ s ts e ts1 d, ParseIdentifierExpr tbl fuel s ts = (Res.ok e, ts1, d) → d = []) ∧
    (∀ s ts ts1 d, ParseIdentifierExpr tbl fuel s ts = (Res.err, ts1, d) → d.length = 1) ∧
    (∀ args ts l ts1 d, ParseArgsLoop tbl fuel args ts = (Res.ok l, ts1, d) → d = []) ∧
    (∀ args ts ts1 d, ParseArgsLoop tbl fuel args ts = (Res.err, ts1, d) → d.length = 1) ∧
    (∀ ts p ts1 d, ParseExternProto ts = (Res.ok p, ts1, d) → d = []) ∧
    (∀ ts ts1 d, ParseExternProto ts = (Res.err, ts1, d) → d.length = 1) ∧
    (∀ ts f ts1 d, ParseTopLevelExpr tbl fuel ts = (Res.ok f, ts1, d) → d = []) ∧
    (∀ ts ts1 d, ParseTopLevelExpr tbl fuel ts = (Res.err, ts1, d) → d.length = 1) := by
  obtain ⟨hE, hP, hI, hA, hPar, hB⟩ := parseInvariants tbl fuel
  refine ⟨?_, ?_, ?_, ?_, ?_, ?_, ?_, ?_, ?_, ?_, ?_, ?_, ?_, ?_, ?_, ?_, ?_, ?_, ?_, ?_⟩
  · intro ts e ts1 d h
    have := hE ts
    rw [h] at this
    exact this.2.1 e rfl
  · intro ts ts1 d h
    have := hE ts
    rw [h] at this
    exact this.2.2 rfl
  · intro ts e ts1 d h
    have := hP ts
    rw [h] at this
    exact this.2.1 e rfl
  · intro ts ts1 d h
    have := hP ts
    rw [h] at this
    exact this.2.2 rfl
  · intro ts e ts1 d h
    have := hPar ts
    rw [h] at this
    exact this.2.1 e rfl
  · intro ts ts1 d h
    have := hPar ts
    rw [h] at this
    exact this.2.2 rfl
  · intro p lhs ts e ts1 d h
    have := hB p lhs ts
    rw [h] at this
    exact this.2.1 e rfl
  · intro p lhs ts ts1 d h
    have := hB p lhs ts
    rw [h] at this
    exact this.2.2 rfl
  · intro ts p ts1 d h
    have := parsePrototype_inv ts
    rw [h] at this
    exact this.2.1 p rfl
  · intro ts ts1 d h
    have := parsePrototype_inv ts
    rw [h] at this
    exact this.2.2 rfl
  · intro ts f ts1 d h
    have := parseDefinition_inv tbl fuel ts
    rw [h] at this
    exact this.2.1 f rfl
  · intro ts ts1 d h
    have := parseDefinition_inv tbl fuel ts
    rw [h] at this
    exact this.2.2 rfl
  · intro s ts e ts1 d h
    have := hI s ts
    rw [h] at this
    exact this.2.1 e rfl
  · intro s ts ts1 d h
    have := hI s ts
    rw [h] at this
    exact this.2.2 rfl
  · intro args ts l ts1 d h
    have := hA args ts
    rw [h] at this
    exact this.2.1 l rfl
  · intro args ts ts1 d h
    have := hA args ts
    rw [h] at this
    exact this.2.2 rfl
  · intro ts p ts1 d h
    simp only [ParseExternProto] at h
    have := parsePrototype_inv (GetNextToken ts)
    rw [h] at this
    exact this.2.1 p rfl
  · intro ts ts1 d h
    simp only [ParseExternProto] at h
    have := parsePrototype_inv (GetNextToken ts)
    rw [h] at this
    exact this.2.2 rfl
  · intro ts f ts1 d h
    rcases hEe : ParseExpression tbl fuel ts with ⟨r, ts2, d2⟩
    have hEi := hE ts
    rw [hEe] at hEi
    cases r with
    | ok e =>
      simp only [ParseTopLevelExpr, hEe] at h
      have hd : d2 = d := congrArg (fun q => q.2.2) h
      rw [← hd]
      exact hEi.2.1 e rfl
    | err => simp [ParseTopLevelExpr, hEe] at h
    | out => simp [ParseTopLevelExpr, hEe] at h
  · intro ts ts1 d h
    rcases hEe : ParseExpression tbl fuel ts with ⟨r, ts2, d2⟩
    have hEi := hE ts
    rw [hEe] at hEi
    cases r with
    | ok e => simp [ParseTopLevelExpr, hEe] at h
    | err =>
      simp only [ParseTopLevelExpr, hEe] at h
      have hd : d2 = d := congrArg (fun q => q.2.2) h
      rw [← hd]
      exact hEi.2.2 rfl
    | out => simp [ParseTopLevelExpr, hEe] at h

theorem parse_failure_propagation_witness :
    ParsePrimary RefPrec 5 [Tok.ch ')'] = (Res.err, [Tok.ch ')'], [Diag.unknownToken])
    ∧ ([Diag.unknownToken] : List Diag).length = 1 :=
  ⟨rfl, (parse_failure_propagation RefPrec 5).2.2.2.1 [Tok.ch ')'] [Tok.ch ')']
    [Diag.unknownToken] rfl⟩

/-- C7: call parsing.  The call with two arguments parses to a CallExpr
with callee foo and the numbers 1 and 2 in order; the empty call parses
to zero arguments; an argument followed by a token that is neither a
comma nor a closing parenthesis fails with the
expected-comma-or-close-paren diagnostic; and in general, whenever the
argument loop has parsed an argument and the lookahead is neither a
closing parenthesis nor a comma, it fails with exactly that diagnostic
appended. -/
theorem call_argument_parsing :
    ParseExpression RefPrec 9 (Tokenize ("foo(1,2)")) =
      (.ok (.call ("foo") [.number 1, .number 2]), [], [])
    ∧ ParseExpression RefPrec 9 (Tokenize ("foo()")) = (.ok (.call ("foo") []), [], [])
    ∧ ParseExpression RefPrec 9 (Tokenize ("foo(1 2)")) =
      (.err, [Tok.num 2, Tok.ch ')'], [Diag.expectedCommaOrCloseParen])
    ∧ ∀ (tbl : Char → Int) (fuel : Nat) (args : List ExprAST) (ts : List Tok) (e : ExprAST)
        (t : Tok) (rest : List Tok) (d : List Diag),
        ParseExpression tbl fuel ts = (Res.ok e, t :: rest, d) →
        t ≠ Tok.ch ')' → t ≠ Tok.ch ',' →
        ParseArgsLoop tbl (fuel + 1) args ts =
          (Res.err, t :: rest, d ++ [Diag.expectedCommaOrCloseParen]) := by
  refine ⟨rfl, rfl, rfl, ?_⟩
  intro tbl fuel args ts e t rest d h hnp hnc
  simp only [ParseArgsLoop, h, CurTok, List.headD_cons]
  rw [if_neg hnp, if_pos hnc]

theorem call_argument_parsing_witness :
    ParseArgsLoop RefPrec 3 [] [Tok.num 1, Tok.defKw] =
      (Res.err, Tok.defKw :: [], [] ++ [Diag.expectedCommaOrCloseParen]) :=
  call_argument_parsing.2.2.2 RefPrec 2 [] [Tok.num 1, Tok.defKw] (.number 1) Tok.defKw [] []
    rfl (by decide) (by decide)

/-- C10: tokens that are not single characters with a registered positive
precedence get precedence -1 from GetTokenPrecedence: all named token
variants (modelling the negative codes for end of input, the two
keywords, identifiers and numbers), characters whose table entry is not
positive, and characters beyond ASCII.  Consequently ParseBinOpRHS,
called with a nonnegative minimum precedence and such a lookahead,
immediately returns its left-hand side unchanged and consumes nothing. -/
theorem nonoperator_token_precedence :
    (∀ tbl : Char → Int,
      GetTokenPrecedence tbl Tok.eof = -1 ∧
      GetTokenPrecedence tbl Tok.defKw = -1 ∧
      GetTokenPrecedence tbl Tok.externKw = -1 ∧
      (∀ s, GetTokenPrecedence tbl (Tok.ident s) = -1) ∧
      (∀ v, GetTokenPrecedence tbl (Tok.num v) = -1) ∧
      (∀ c, tbl c ≤ 0 → GetTokenPrecedence tbl (Tok.ch c) = -1) ∧
      (∀ c, 127 < c.toNat → GetTokenPrecedence tbl (Tok.ch c) = -1)) ∧
    (∀ (tbl : Char → Int) (fuel : Nat) (p : Int) (lhs : ExprAST) (ts : List Tok),
      0 ≤ p → GetTokenPrecedence tbl (CurTok ts) = -1 →
      ParseBinOpRHS tbl (fuel + 1) p lhs ts = (Res.ok lhs, ts, [])) := by
  constructor
  · intro tbl
    refine ⟨rfl, rfl, rfl, fun s => rfl, fun v => rfl, fun c hc => ?_, fun c hc => ?_⟩
    · simp [GetTokenPrecedence, hc]
    · have hn : ¬(c.toNat ≤ 127) := by omega
      simp [GetTokenPrecedence, hn]
  · intro tbl fuel p lhs ts hp hprec
    simp only [ParseBinOpRHS, hprec]
    rw [if_pos (by omega)]

theorem nonoperator_token_precedence_witness :
    ParseBinOpRHS RefPrec 1 0 (ExprAST.number 1) [] = (Res.ok (ExprAST.number 1), [], []) :=
  nonoperator_token_precedence.2 RefPrec 0 0 (ExprAST.number 1) [] (by decide) (by decide)

theorem protoArgsLoop_run (xs : List String) :
    ∀ (h : Tok) (rest : List Tok) (acc : List String),
      ProtoArgsLoop (h :: (xs.map Tok.ident ++ Tok.ch ')' :: rest)) acc =
        (acc ++ xs, Tok.ch ')' :: rest) := by
  induction xs with
  | nil =>
    intro h rest acc
    simp [ProtoArgsLoop, CurTok]
  | cons x xtl ih =>
    intro h rest acc
    have step :
        ProtoArgsLoop (h :: (Tok.ident x :: (xtl.map Tok.ident ++ Tok.ch ')' :: rest))) acc =
          ProtoArgsLoop (Tok.ident x :: (xtl.map Tok.ident ++ Tok.ch ')' :: rest))
            (acc ++ [x]) := rfl
    simp only [List.map_cons, List.cons_append]
    rw [step, ih (Tok.ident x) rest (acc ++ [x])]
    simp

theorem parsePrototype_run (f : String) (xs : List String) (rest : List Tok) :
    ParsePrototype (Tok.ident f :: Tok.ch '(' :: (xs.map Tok.ident ++ Tok.ch ')' :: rest)) =
      (Res.ok ⟨f, xs⟩, rest, []) := by
  simp only [ParsePrototype, CurTok, List.headD_cons, GetNextToken, List.tail_cons]
  rw [protoArgsLoop_run xs (Tok.ch '(') rest []]
  simp [CurTok, GetNextToken]

/-- C9: for every definition prototype consisting of an identifier, an
opening parenthesis, any run of identifier tokens, and a closing
parenthesis, ParsePrototype yields that name and exactly those parameter
names in input order, with no uniqueness validation; concretely, def f
with parameters x y and body x plus y parses fully, and a duplicated
parameter name is accepted silently with no diagnostic. -/
theorem prototype_parameters_in_order :
    (∀ (f : String) (xs : List String) (rest : List Tok),
      ParsePrototype (Tok.ident f :: Tok.ch '(' :: (xs.map Tok.ident ++ Tok.ch ')' :: rest)) =
        (Res.ok ⟨f, xs⟩, rest, []))
    ∧ ParseDefinition RefPrec 9 (Tokenize ("def f(x y) x+y")) =
        (.ok ⟨⟨"f", ["x", "y"]⟩, .binary '+' (.var ("x")) (.var ("y"))⟩, [], [])
    ∧ ParseDefinition RefPrec 9 (Tokenize ("def f(x x) 1")) =
        (.ok ⟨⟨"f", ["x", "x"]⟩, .number 1⟩, [], []) :=
  ⟨parsePrototype_run, rfl, rfl⟩

theorem prototype_parameters_in_order_witness :
    ParsePrototype (Tok.ident ("h") :: Tok.ch '(' ::
        (List.map Tok.ident ["a"] ++ Tok.ch ')' :: ([] : List Tok))) =
      (Res.ok ⟨"h", ["a"]⟩, ([] : List Tok), []) :=
  prototype_parameters_in_order.1 ("h") (["a"]) ([])

/-- C2: equal-precedence operators associate left.  Concretely, 1-2-3
parses to the tree with (1-2) as the left child of the outer minus and 3
as its right child.  In general, for any chain of operand and operator
tokens in which every operator carries the same positive registered
precedence, ParseBinOpRHS (entered with minimum precedence 0 and enough
fuel) produces the fully left-nested tree: the look-ahead comparison
never fires because the following precedence is never strictly greater,
so each iteration folds the previous result in as the left child. -/
theorem left_associativity_equal_precedence :
    ParseExpression RefPrec 9 (Tokenize ("1-2-3")) =
      (.ok (.binary '-' (.binary '-' (.number 1) (.number 2)) (.number 3)), [], [])
    ∧ ∀ (tbl : Char → Int) (prec : Int), 0 < prec →
        ∀ (ps : List (Char × Rat)) (fuel : Nat) (lhs : ExprAST),
          ps.length + 2 ≤ fuel →
          (∀ q ∈ ps, q.1.toNat ≤ 127 ∧ tbl q.1 = prec) →
          ParseBinOpRHS tbl fuel 0 lhs (ChainToks ps) = (Res.ok (LeftNest lhs ps), [], []) :=
  ⟨rfl, fun tbl prec hp => binOpRHS_equal_precedence_chain tbl prec hp⟩

theorem left_associativity_equal_precedence_witness :
    ParseBinOpRHS RefPrec 3 0 (ExprAST.number 1) (ChainToks [('-', 2)]) =
      (Res.ok (LeftNest (ExprAST.number 1) [('-', 2)]), [], []) :=
  left_associativity_equal_precedence.2 RefPrec 20 (by decide) [('-', 2)] 3
    (ExprAST.number 1) (by decide) (by decide)

end Kaleidoscope
